import Mathlib

/-!
Verification development for the Automation-Scripting folder analyzer.

The repository walks a directory tree, filters files by minimum size and by an
optional allowed-extension set, and renders an ASCII tree with human-readable
size annotations.  We embed the core components:

* `analyze_folder_generator` (src/modules/engine.py) — the Scanner, a depth
  first walk yielding (path, size, extension) triples for every retained file;
* `generate_tree` (src/modules/visualizer.py) — the Renderer, which sorts each
  listing, filters files, draws connector glyphs and threads a progress
  counter through the recursion;
* `format_size` (src/modules/utils.py) — binary-unit human size formatting;
* the extension normalization step of `validate_and_normalize_inputs`
  (src/modules/validators.py).

The filesystem is modelled as an inductive tree: each file carries a flag
telling whether `os.path.getsize` succeeds on it, each directory a flag
telling whether `os.listdir` / `os.scandir` succeeds.  Python float
arithmetic inside `format_size` is modelled as exact rational arithmetic,
which coincides with IEEE doubles on every division by 1024 of the values the
claims mention (all exactly representable).  Writes to stdout (the live
progress line) are side effects with no influence on the returned values and
are not modelled.
-/

namespace AutomationScripting

/-- A filesystem snapshot node.  `statOk` is true when `os.path.getsize`
succeeds on the file; `listable` is true when the directory listing
(`os.listdir` in the Renderer, `os.scandir` inside `os.walk` in the Scanner)
succeeds. -/
inductive FSNode : Type where
  | file (name : String) (size : Nat) (statOk : Bool)
  | dir (name : String) (listable : Bool) (children : List FSNode)

def FSNode.name : FSNode → String
  | .file n _ _ => n
  | .dir n _ _ => n

def FSNode.isDir : FSNode → Bool
  | .file _ _ _ => false
  | .dir _ _ _ => true

/-- Python `str.lower`, character by character (the inputs of interest are
ASCII, where `Char.toLower` agrees with Python). -/
def strLower (s : String) : String := ⟨s.data.map Char.toLower⟩

/-- Python `e.startswith('.')`: the first character is a dot. -/
def startsWithDot (s : String) : Bool :=
  match s.data with
  | '.' :: _ => true
  | _ => false

/-- The extension part returned by `os.path.splitext` on a basename (no path
separator): the suffix starting at the rightmost dot, provided some character
before that dot is not itself a dot; otherwise empty. -/
def splitextExt (cs : List Char) : List Char :=
  match ((cs.enum.filter (fun p => p.2 = '.')).map (fun p => p.1)).getLast? with
  | none => []
  | some r => if (cs.take r).any (fun c => c ≠ '.') then cs.drop r else []

/-- `ext = ext.lower() if ext else "(no extension)"` — shared normalization
text appearing verbatim in both engine.py and visualizer.py. -/
def extOf (name : String) : String :=
  let e : String := ⟨splitextExt name.data⟩
  if e = "" then "(no extension)" else strLower e

/-- The per-file body of the Scanner loop (engine.py lines 10-29): compute the
extension, skip when the allowed set is truthy and does not contain it, then
`os.path.getsize` (an `OSError` skips the file), then skip when the size is
below the minimum; otherwise yield `(full_path, size, ext)`. -/
def engineFileYield (root : String) (minSize : Nat)
    (allowed : Option (List String)) (name : String) (size : Nat)
    (statOk : Bool) : Option (String × Nat × String) :=
  if (match allowed with
      | none => false
      | some l => !l.isEmpty && !l.contains (extOf name)) then none
  else if !statOk then none
  else if size < minSize then none
  else some (root ++ "/" ++ name, size, extOf name)

mutual

/-- Embedding of `analyze_folder_generator` (engine.py).  `os.walk` yields the
triple of a directory only when its listing succeeds; an unlistable directory
contributes nothing and its subtree is not entered.  For each yielded triple
the loop processes the regular files, then the walk descends into the
subdirectories in listing order.  The generator is materialised as the list
of yielded `(full_path, size_bytes, ext)` triples in yield order. -/
def analyze_folder_generator (path : String) (node : FSNode) (minSize : Nat)
    (allowed : Option (List String)) : List (String × Nat × String) :=
  match node with
  | .file _ _ _ => []
  | .dir _ listable children =>
    if listable then
      engineDirFiles path children minSize allowed ++
        engineSubdirs path children minSize allowed
    else []

/-- The `for file in files` loop of one `os.walk` triple. -/
def engineDirFiles (path : String) (cs : List FSNode) (minSize : Nat)
    (allowed : Option (List String)) : List (String × Nat × String) :=
  match cs with
  | [] => []
  | .file n s ok :: rest =>
    (engineFileYield path minSize allowed n s ok).toList ++
      engineDirFiles path rest minSize allowed
  | .dir _ _ _ :: rest => engineDirFiles path rest minSize allowed

/-- The descent of `os.walk` into the subdirectories of one listing. -/
def engineSubdirs (path : String) (cs : List FSNode) (minSize : Nat)
    (allowed : Option (List String)) : List (String × Nat × String) :=
  match cs with
  | [] => []
  | .file _ _ _ :: rest => engineSubdirs path rest minSize allowed
  | .dir n l cc :: rest =>
    analyze_folder_generator (path ++ "/" ++ n) (.dir n l cc) minSize allowed ++
      engineSubdirs path rest minSize allowed

end

/-- The extension normalization step (step 3) of
`validate_and_normalize_inputs` (validators.py lines 42-47): a missing or
empty `--ext` argument leaves the allowed set at `None`; otherwise each raw
extension is lower-cased and prefixed with a dot when it lacks one, collected
into a set (modelled as a duplicate-free list; only membership matters). -/
def normalize_extensions (ext : Option (List String)) : Option (List String) :=
  match ext with
  | none => none
  | some l =>
    if l.isEmpty then none
    else
      some ((l.map (fun e =>
        if startsWithDot e then strLower e else "." ++ strLower e)).dedup)

/-- Human-readable size units, utils.py line 39: `['B','KB','MB','GB','TB']`. -/
def unitsList : List String := ["B", "KB", "MB", "GB", "TB"]

/-- Round a rational to the nearest integer, ties to even — the rounding the
CPython float formatting `f"{x:.2f}"` performs (exact on every value the
claims mention, where no rounding is even needed). -/
def roundHalfEven (q : ℚ) : Int :=
  let n : Int := ⌊q⌋
  let frac : ℚ := q - n
  if frac < 1 / 2 then n
  else if 1 / 2 < frac then n + 1
  else if n % 2 = 0 then n else n + 1

def padTwo (n : Nat) : String :=
  if n < 10 then "0" ++ toString n else toString n

/-- `f"{x:.2f}"` for a non-negative value: two fixed decimal places. -/
def formatFixed2 (q : ℚ) : String :=
  let c : Int := roundHalfEven (q * 100)
  toString (c / 100) ++ "." ++ padTwo (c % 100).natAbs

/-- The `while size_bytes >= 1024 and unit_index < len(units) - 1` loop of
`format_size`, with the float value carried exactly as a rational.  The fuel
4 is exact: the guard `unit_index < 4` admits at most four iterations. -/
def fsLoop : Nat → ℚ → Nat → ℚ × Nat
  | 0, q, i => (q, i)
  | fuel + 1, q, i =>
    if 1024 ≤ q ∧ i < 4 then fsLoop fuel (q / 1024) (i + 1) else (q, i)

/-- Embedding of `format_size` (utils.py lines 32-47): zero gets the literal
"0 B"; otherwise divide by 1024 while at least 1024 and below the last unit,
then print with two decimals and the reached unit. -/
def format_size (size_bytes : Nat) : String :=
  if size_bytes = 0 then "0 B"
  else
    let r := fsLoop 4 (size_bytes : ℚ) 0
    formatFixed2 r.1 ++ " " ++ unitsList.getD r.2 "B"

/-- The per-item retention decision of the Renderer pre-filtering loop
(visualizer.py lines 34-48): a directory is always appended; a file is
appended when `os.path.getsize` succeeds, then the extension check and the
size check pass, in that order. -/
def rendererKeep (minSize : Nat) (allowed : Option (List String)) :
    FSNode → Bool
  | .dir _ _ _ => true
  | .file name size ok =>
    if !ok then false
    else if (match allowed with
        | none => false
        | some l => !l.isEmpty && !l.contains (extOf name)) then false
    else if size < minSize then false
    else true

/-- Stable insertion of a node into a name-ordered list: a node moves past
exactly the strictly smaller names in front of it. -/
def insertByName (a : FSNode) : List FSNode → List FSNode
  | [] => [a]
  | b :: l => if a.name ≤ b.name then a :: b :: l else b :: insertByName a l

/-- `sorted(os.listdir(dir_path))`: Python sorts names by code points with a
stable sort.  A stable sort is determined by the order, so this stable
insertion sort by the lexicographic String order produces the same listing
order as the Python call. -/
def sortByName : List FSNode → List FSNode
  | [] => []
  | a :: l => insertByName a (sortByName l)

theorem insertByName_perm (a : FSNode) (l : List FSNode) :
    List.Perm (insertByName a l) (a :: l) := by
  induction l with
  | nil => exact List.Perm.refl _
  | cons b l ih =>
    simp only [insertByName]
    by_cases h : a.name ≤ b.name
    · rw [if_pos h]
    · rw [if_neg h]
      exact (List.Perm.cons b ih).trans (List.Perm.swap a b l)

theorem sortByName_perm (l : List FSNode) :
    List.Perm (sortByName l) l := by
  induction l with
  | nil => exact List.Perm.refl _
  | cons a l ih => exact (insertByName_perm a _).trans (List.Perm.cons a ih)

theorem mem_sortByName {a : FSNode} {l : List FSNode} :
    a ∈ sortByName l ↔ a ∈ l :=
  (sortByName_perm l).mem_iff

theorem length_sortByName (l : List FSNode) :
    (sortByName l).length = l.length :=
  (sortByName_perm l).length_eq

theorem sizeOf_filter_le (p : FSNode → Bool) (l : List FSNode) :
    sizeOf (l.filter p) ≤ sizeOf l := by
  induction l with
  | nil => simp
  | cons a l ih =>
    simp only [List.filter_cons]
    by_cases h : p a = true
    · simp only [if_pos h, List.cons.sizeOf_spec]
      omega
    · simp only [if_neg h, List.cons.sizeOf_spec]
      omega

theorem sizeOf_sortByName (cs : List FSNode) :
    sizeOf (sortByName cs) = sizeOf cs :=
  (sortByName_perm cs).sizeOf_eq_sizeOf

theorem sizeOf_filter_sort_lt (p : FSNode → Bool) (n : String) (b : Bool)
    (cs : List FSNode) :
    sizeOf ((sortByName cs).filter p) < sizeOf (FSNode.dir n b cs) := by
  have h1 := sizeOf_filter_le p (sortByName cs)
  have h2 := sizeOf_sortByName cs
  simp only [FSNode.dir.sizeOf_spec]
  omega

mutual

/-- Embedding of `generate_tree` (visualizer.py).  The Python function
mutates `progress_tracker['count']`; here the counter is passed in and the
updated value is returned alongside the assembled tree string.  An `OSError`
from `os.listdir` returns the empty string with the counter untouched;
otherwise the sorted listing is pre-filtered (counting every examined item)
and the retained items are drawn. -/
def generate_tree (node : FSNode) (dirPath : String) (pref : String)
    (minSize : Nat) (allowed : Option (List String)) (progress : Nat) :
    String × Nat :=
  match node with
  | .file _ _ _ => ("", progress)
  | .dir _ listable children =>
    if listable then
      drawItems ((sortByName children).filter (rendererKeep minSize allowed))
        dirPath pref minSize allowed
        (progress + (sortByName children).length)
    else ("", progress)
termination_by sizeOf node
decreasing_by
  exact sizeOf_filter_sort_lt _ _ _ _

/-- The drawing loop of `generate_tree`: connector glyph by last-child
position, size suffix for files whose `os.path.getsize` succeeds (a failure
is swallowed and the bare name drawn), recursion into directory children
with the extended continuation segment. -/
def drawItems (items : List FSNode) (dirPath : String) (pref : String)
    (minSize : Nat) (allowed : Option (List String)) (progress : Nat) :
    String × Nat :=
  match items with
  | [] => ("", progress)
  | item :: rest =>
    let isLast := rest.isEmpty
    let connector := if isLast then "└── " else "├── "
    let display :=
      match item with
      | .file n s ok => if ok then n ++ " (" ++ format_size s ++ ")" else n
      | .dir n _ _ => n
    let line := pref ++ connector ++ display ++ "\n"
    let sub :=
      match item with
      | .dir n l cc =>
        generate_tree (.dir n l cc) (dirPath ++ "/" ++ n)
          (pref ++ (if isLast then "    " else "│   ")) minSize allowed
          progress
      | .file _ _ _ => ("", progress)
    let rem := drawItems rest dirPath pref minSize allowed sub.2
    (line ++ sub.1 ++ rem.1, rem.2)
termination_by sizeOf items
decreasing_by
  · simp only [List.cons.sizeOf_spec]
    omega
  · simp only [List.cons.sizeOf_spec]
    omega

end

/-- The scenario filesystem of the end-to-end test in the spec: a root with
`a.txt` (500 bytes), `b.jpg` (2048 bytes) and a subdirectory `sub` holding
`c.jpg` (10 bytes); everything readable. -/
def scenarioTree : FSNode :=
  .dir "root" true
    [.file "a.txt" 500 true, .file "b.jpg" 2048 true,
     .dir "sub" true [.file "c.jpg" 10 true]]

/-- Claim C6: for every directory whose child listing fails, `generate_tree`
returns the empty string for that call instead of raising or propagating an
error (the embedding is total, so no exception can escape). -/
theorem listing_failure_yields_empty_string (n : String) (cs : List FSNode)
    (dirPath pref : String) (minSize : Nat) (allowed : Option (List String))
    (progress : Nat) :
    (generate_tree (.dir n false cs) dirPath pref minSize allowed
      progress).1 = "" := by
  simp [generate_tree]

/-- Claim C10: whenever the directory listing of `dirPath` fails,
`generate_tree` returns with the progress counter exactly as it was on
entry; no entry of the unlistable directory is counted. -/
theorem listing_failure_preserves_progress (n : String) (cs : List FSNode)
    (dirPath pref : String) (minSize : Nat) (allowed : Option (List String))
    (progress : Nat) :
    (generate_tree (.dir n false cs) dirPath pref minSize allowed
      progress).2 = progress := by
  simp [generate_tree]

/-- Claim C7: `format_size` uses binary 1024-based units with two decimal
places and the distinct literal "0 B" for zero: 0 bytes, 1024 bytes, 1536
bytes and 1073741824 bytes format as stated. -/
theorem format_size_values :
    format_size 0 = "0 B" ∧ format_size 1024 = "1.00 KB" ∧
    format_size 1536 = "1.50 KB" ∧
    format_size 1073741824 = "1.00 GB" := by
  refine ⟨rfl, ?_, ?_, ?_⟩ <;>
    · norm_num [format_size, fsLoop, formatFixed2, roundHalfEven, padTwo,
        unitsList]
      rfl

/-- Claim C4: each of the raw allowed-extension inputs "JPG", ".jpg" and
"jpg" normalizes (via the extension-normalization step of
`validate_and_normalize_inputs`) to a set under which the file `photo.JPG`
passes the extension check of the Scanner (it is yielded) and of the
Renderer (it is kept). -/
theorem extension_normalization_agreement :
    (engineFileYield "r" 0 (normalize_extensions (some ["JPG"]))
        "photo.JPG" 1 true = some ("r/photo.JPG", 1, ".jpg") ∧
      rendererKeep 0 (normalize_extensions (some ["JPG"]))
        (.file "photo.JPG" 1 true) = true) ∧
    (engineFileYield "r" 0 (normalize_extensions (some [".jpg"]))
        "photo.JPG" 1 true = some ("r/photo.JPG", 1, ".jpg") ∧
      rendererKeep 0 (normalize_extensions (some [".jpg"]))
        (.file "photo.JPG" 1 true) = true) ∧
    (engineFileYield "r" 0 (normalize_extensions (some ["jpg"]))
        "photo.JPG" 1 true = some ("r/photo.JPG", 1, ".jpg") ∧
      rendererKeep 0 (normalize_extensions (some ["jpg"]))
        (.file "photo.JPG" 1 true) = true) := by
  decide

/-- Claim C8: on the scenario tree with `minSizeBytes = 1024` and allowed
extensions `{".jpg"}`, the Scanner yields exactly the single entry
`(root/b.jpg, 2048, ".jpg")`, and the Renderer draws the line
`├── b.jpg (2.00 KB)` followed by the childless line `└── sub` for the
empty-after-filtering subdirectory (progress 4: three root entries plus one
in `sub`). -/
theorem end_to_end_scenario :
    analyze_folder_generator "root" scenarioTree 1024 (some [".jpg"])
        = [("root/b.jpg", 2048, ".jpg")] ∧
    generate_tree scenarioTree "root" "" 1024 (some [".jpg"]) 0
        = ("├── b.jpg (2.00 KB)\n└── sub\n", 4) := by
  constructor
  · simp +decide [scenarioTree, analyze_folder_generator, engineDirFiles,
      engineSubdirs, engineFileYield, extOf, splitextExt, strLower]
  · simp +decide [scenarioTree, generate_tree, drawItems, sortByName,
      insertByName, rendererKeep, extOf, splitextExt, strLower, FSNode.name]
    norm_num [format_size, fsLoop, formatFixed2, roundHalfEven, padTwo,
      unitsList]
    rfl

/-- Claim C3: with `minSizeBytes = n`, a file of size exactly `n` (readable,
extension check passing) is retained by both components — the Scanner yields
it and the Renderer keeps it — while a file of size `n - 1` (for `n > 0`) is
rejected by both.  The hypothesis is the shared extension-skip condition
(the identical source text in engine.py line 16 and visualizer.py line 42)
evaluating to false. -/
theorem inclusive_size_boundary (path dn name : String) (n : Nat)
    (allowed : Option (List String))
    (hext : (match allowed with
             | none => false
             | some l => !l.isEmpty && !l.contains (extOf name)) = false) :
    analyze_folder_generator path (.dir dn true [.file name n true]) n allowed
        = [(path ++ "/" ++ name, n, extOf name)]
    ∧ rendererKeep n allowed (.file name n true) = true
    ∧ (0 < n →
        analyze_folder_generator path (.dir dn true [.file name (n - 1) true])
            n allowed = []
        ∧ rendererKeep n allowed (.file name (n - 1) true) = false) := by
  refine ⟨?_, ?_, fun hn => ⟨?_, ?_⟩⟩
  · simp only [analyze_folder_generator, engineDirFiles, engineSubdirs,
      engineFileYield]
    rw [hext]
    simp
  · simp only [rendererKeep]
    rw [hext]
    simp
  · have h1 : n - 1 < n := by omega
    simp only [analyze_folder_generator, engineDirFiles, engineSubdirs,
      engineFileYield]
    rw [hext]
    simp [h1]
  · have h1 : n - 1 < n := by omega
    simp only [rendererKeep]
    rw [hext]
    simp [h1]

theorem inclusive_size_boundary_witness :
    analyze_folder_generator "r" (.dir "d" true [.file "f.jpg" 5 true]) 5
        (some [".jpg"]) = [("r/f.jpg", 5, ".jpg")]
    ∧ rendererKeep 5 (some [".jpg"]) (.file "f.jpg" 5 true) = true
    ∧ (0 < 5 →
        analyze_folder_generator "r" (.dir "d" true [.file "f.jpg" 4 true]) 5
            (some [".jpg"]) = []
        ∧ rendererKeep 5 (some [".jpg"]) (.file "f.jpg" 4 true) = false) :=
  inclusive_size_boundary "r" "d" "f.jpg" 5 (some [".jpg"]) (by decide)

theorem engineFileYield_eq_some_iff {root : String} {m : Nat}
    {a : Option (List String)} {nm : String} {sz : Nat} {ok : Bool}
    {p : String} {s : Nat} {e : String} :
    engineFileYield root m a nm sz ok = some (p, s, e) ↔
    ((match a with
      | none => false
      | some l => !l.isEmpty && !l.contains (extOf nm)) = false
     ∧ ok = true ∧ ¬sz < m
     ∧ root ++ "/" ++ nm = p ∧ sz = s ∧ extOf nm = e) := by
  unfold engineFileYield
  cases hA : (match a with
      | none => false
      | some l => !l.isEmpty && !l.contains (extOf nm)) <;>
    cases ok <;> by_cases hm : sz < m <;> simp [hm]

theorem engineFileYield_filter {root : String} {m : Nat}
    {a : Option (List String)} {nm : String} {sz : Nat} {ok : Bool}
    {p : String} {s : Nat} {e : String}
    (h : engineFileYield root m a nm sz ok = some (p, s, e)) :
    m ≤ s ∧ ∀ l, a = some l → l ≠ [] → e ∈ l := by
  obtain ⟨hA, hok, hm, hp, hs, he⟩ := engineFileYield_eq_some_iff.mp h
  refine ⟨by omega, ?_⟩
  intro l hl hne
  subst hl
  rw [← he]
  have hA2 : (!l.isEmpty && !l.contains (extOf nm)) = false := hA
  rcases Bool.and_eq_false_iff.mp hA2 with h1 | h1 <;> simp at h1
  · exact absurd h1 hne
  · exact h1

theorem mem_engineDirFiles {path : String} {m : Nat}
    {a : Option (List String)} {cs : List FSNode}
    {ent : String × Nat × String} :
    ent ∈ engineDirFiles path cs m a ↔
    ∃ nm sz ok, FSNode.file nm sz ok ∈ cs ∧
      engineFileYield path m a nm sz ok = some ent := by
  induction cs with
  | nil => simp [engineDirFiles]
  | cons c rest ih =>
    cases c with
    | file nm sz ok =>
      simp only [engineDirFiles, List.mem_append, Option.mem_toList,
        Option.mem_def, ih, List.mem_cons]
      constructor
      · rintro (h | ⟨nm2, sz2, ok2, hmem, hy⟩)
        · exact ⟨nm, sz, ok, Or.inl rfl, h⟩
        · exact ⟨nm2, sz2, ok2, Or.inr hmem, hy⟩
      · rintro ⟨nm2, sz2, ok2, h | hmem, hy⟩
        · injection h with h1 h2 h3
          subst h1; subst h2; subst h3
          exact Or.inl hy
        · exact Or.inr ⟨nm2, sz2, ok2, hmem, hy⟩
    | dir n l cc =>
      simp only [engineDirFiles, ih, List.mem_cons]
      constructor
      · rintro ⟨nm2, sz2, ok2, hmem, hy⟩
        exact ⟨nm2, sz2, ok2, Or.inr hmem, hy⟩
      · rintro ⟨nm2, sz2, ok2, h | hmem, hy⟩
        · exact absurd h (by simp)
        · exact ⟨nm2, sz2, ok2, hmem, hy⟩

theorem mem_engineSubdirs {path : String} {m : Nat}
    {a : Option (List String)} {cs : List FSNode}
    {ent : String × Nat × String} :
    ent ∈ engineSubdirs path cs m a ↔
    ∃ n l cc, FSNode.dir n l cc ∈ cs ∧
      ent ∈ analyze_folder_generator (path ++ "/" ++ n) (.dir n l cc) m a := by
  induction cs with
  | nil => simp [engineSubdirs]
  | cons c rest ih =>
    cases c with
    | file nm sz ok =>
      simp only [engineSubdirs, ih, List.mem_cons]
      constructor
      · rintro ⟨n2, l2, cc2, hmem, hy⟩
        exact ⟨n2, l2, cc2, Or.inr hmem, hy⟩
      · rintro ⟨n2, l2, cc2, h | hmem, hy⟩
        · exact absurd h (by simp)
        · exact ⟨n2, l2, cc2, hmem, hy⟩
    | dir n l cc =>
      simp only [engineSubdirs, List.mem_append, ih, List.mem_cons]
      constructor
      · rintro (h | ⟨n2, l2, cc2, hmem, hy⟩)
        · exact ⟨n, l, cc, Or.inl rfl, h⟩
        · exact ⟨n2, l2, cc2, Or.inr hmem, hy⟩
      · rintro ⟨n2, l2, cc2, h | hmem, hy⟩
        · injection h with h1 h2 h3
          subst h1; subst h2; subst h3
          exact Or.inl hy
        · exact Or.inr ⟨n2, l2, cc2, hmem, hy⟩

theorem scanner_postcondition_aux :
    ∀ (k : Nat) (node : FSNode), sizeOf node < k →
      ∀ (path : String) (m : Nat) (a : Option (List String)) (p : String)
        (s : Nat) (e : String),
        (p, s, e) ∈ analyze_folder_generator path node m a →
        m ≤ s ∧ ∀ l, a = some l → l ≠ [] → e ∈ l := by
  intro k
  induction k with
  | zero => exact fun node h => absurd h (Nat.not_lt_zero _)
  | succ k ih =>
    intro node hk path m a p s e hmem
    cases node with
    | file nm sz ok => simp [analyze_folder_generator] at hmem
    | dir n listable cs =>
      cases listable with
      | false => simp [analyze_folder_generator] at hmem
      | true =>
        simp only [analyze_folder_generator, if_true, List.mem_append] at hmem
        rcases hmem with h | h
        · obtain ⟨nm, sz, ok, _, hy⟩ := mem_engineDirFiles.mp h
          exact engineFileYield_filter hy
        · obtain ⟨n2, l2, cc2, hmem2, hrec⟩ := mem_engineSubdirs.mp h
          have hsz : sizeOf (FSNode.dir n2 l2 cc2) < k := by
            have h1 := List.sizeOf_lt_of_mem hmem2
            simp only [FSNode.dir.sizeOf_spec] at hk
            omega
          exact ih _ hsz _ _ _ _ _ _ hrec

/-- Claim C2: every `(path, size, extension)` triple the Scanner yields
satisfies the filter predicate — the size is at least `minSizeBytes` and,
when the allowed-extension set is a restricted (non-empty) set, the
normalized extension is a member of it. -/
theorem scanner_postcondition (path : String) (node : FSNode) (m : Nat)
    (a : Option (List String)) (p : String) (s : Nat) (e : String)
    (hmem : (p, s, e) ∈ analyze_folder_generator path node m a) :
    m ≤ s ∧ ∀ l, a = some l → l ≠ [] → e ∈ l :=
  scanner_postcondition_aux (sizeOf node + 1) node (Nat.lt_succ_self _)
    path m a p s e hmem

theorem scanner_postcondition_witness :
    1024 ≤ 2048 ∧
    ∀ l, (some [".jpg"] : Option (List String)) = some l → l ≠ [] →
      ".jpg" ∈ l :=
  scanner_postcondition "root" scenarioTree 1024 (some [".jpg"])
    "root/b.jpg" 2048 ".jpg"
    (by simp +decide [scenarioTree, analyze_folder_generator, engineDirFiles,
      engineSubdirs, engineFileYield, extOf, splitextExt, strLower])

theorem engineFileYield_empty (path : String) (m : Nat) (nm : String)
    (sz : Nat) (ok : Bool) :
    engineFileYield path m (some []) nm sz ok
      = engineFileYield path m none nm sz ok := rfl

theorem engineDirFiles_empty (path : String) (m : Nat) (cs : List FSNode) :
    engineDirFiles path cs m (some []) = engineDirFiles path cs m none := by
  induction cs with
  | nil => rfl
  | cons c rest ih =>
    cases c with
    | file nm sz ok =>
      simp only [engineDirFiles, engineFileYield_empty, ih]
    | dir n l cc =>
      simp only [engineDirFiles, ih]

theorem scanner_empty_aux :
    ∀ k : Nat,
      (∀ node : FSNode, sizeOf node < k → ∀ path m,
        analyze_folder_generator path node m (some [])
          = analyze_folder_generator path node m none)
      ∧ (∀ cs : List FSNode, sizeOf cs < k → ∀ path m,
        engineSubdirs path cs m (some []) = engineSubdirs path cs m none) := by
  intro k
  induction k with
  | zero =>
    exact ⟨fun node h => absurd h (Nat.not_lt_zero _),
      fun cs h => absurd h (Nat.not_lt_zero _)⟩
  | succ k ih =>
    obtain ⟨ihn, ihl⟩ := ih
    constructor
    · intro node hk path m
      cases node with
      | file nm sz ok => rfl
      | dir n listable cs =>
        cases listable with
        | false => rfl
        | true =>
          simp only [analyze_folder_generator, if_true, engineDirFiles_empty]
          rw [ihl cs (by simp only [FSNode.dir.sizeOf_spec] at hk; omega)]
    · intro cs hk path m
      cases cs with
      | nil => rfl
      | cons c rest =>
        have hrest : sizeOf rest < k := by
          simp only [List.cons.sizeOf_spec] at hk
          have : 0 < sizeOf c := by cases c <;> simp
          omega
        cases c with
        | file nm sz ok =>
          simp only [engineSubdirs]
          exact ihl rest hrest path m
        | dir n l cc =>
          simp only [engineSubdirs]
          rw [ihl rest hrest path m,
            ihn (.dir n l cc) (by simp only [List.cons.sizeOf_spec] at hk; omega) _ m]

theorem rendererKeep_empty (m : Nat) :
    rendererKeep m (some []) = rendererKeep m none := by
  funext node
  cases node <;> rfl

theorem renderer_empty_aux :
    ∀ k : Nat,
      (∀ node : FSNode, sizeOf node < k → ∀ dirPath pref m prog,
        generate_tree node dirPath pref m (some []) prog
          = generate_tree node dirPath pref m none prog)
      ∧ (∀ items : List FSNode, sizeOf items < k → ∀ dirPath pref m prog,
        drawItems items dirPath pref m (some []) prog
          = drawItems items dirPath pref m none prog) := by
  intro k
  induction k with
  | zero =>
    exact ⟨fun node h => absurd h (Nat.not_lt_zero _),
      fun items h => absurd h (Nat.not_lt_zero _)⟩
  | succ k ih =>
    obtain ⟨ihn, ihl⟩ := ih
    constructor
    · intro node hk dirPath pref m prog
      cases node with
      | file nm sz ok => simp [generate_tree]
      | dir n listable cs =>
        cases listable with
        | false => simp [generate_tree]
        | true =>
          simp only [generate_tree, if_true, rendererKeep_empty]
          apply ihl
          have h1 := sizeOf_filter_sort_lt (rendererKeep m none) n true cs
          simp only [FSNode.dir.sizeOf_spec] at hk h1
          omega
    · intro items hk dirPath pref m prog
      cases items with
      | nil => simp [drawItems]
      | cons item rest =>
        have hrest : sizeOf rest < k := by
          simp only [List.cons.sizeOf_spec] at hk
          have : 0 < sizeOf item := by cases item <;> simp
          omega
        cases item with
        | file fn fs fok =>
          simp only [drawItems]
          rw [ihl rest hrest]
        | dir dn dl dcc =>
          have hitem : sizeOf (FSNode.dir dn dl dcc) < k := by
            simp only [List.cons.sizeOf_spec] at hk
            omega
          simp only [drawItems]
          rw [ihn (.dir dn dl dcc) hitem, ihl rest hrest]

/-- Claim C9 (implicit): an empty allowed-extension set behaves as
"match all" rather than "reject all": with `allowedExtensions = {}` both the
Scanner and the Renderer behave exactly as with no extension restriction at
all, because the Python truthiness test `if allowed_exts and ...` skips the
membership check for the empty set. -/
theorem empty_extension_set_matches_all (path dirPath pref : String)
    (node : FSNode) (m prog : Nat) :
    analyze_folder_generator path node m (some [])
        = analyze_folder_generator path node m none
    ∧ generate_tree node dirPath pref m (some []) prog
        = generate_tree node dirPath pref m none prog :=
  ⟨(scanner_empty_aux (sizeOf node + 1)).1 node (Nat.lt_succ_self _) path m,
   (renderer_empty_aux (sizeOf node + 1)).1 node (Nat.lt_succ_self _)
     dirPath pref m prog⟩

mutual

/-- The measure the progress claim compares against: the total number of
immediate children (directories and files both) summed over every directory
of the tree.  On a fully readable tree this is exactly the set of entries
the Renderer examines. -/
def countEntries : FSNode → Nat
  | .file _ _ _ => 0
  | .dir _ _ cs => cs.length + countList cs

def countList : List FSNode → Nat
  | [] => 0
  | c :: rest => countEntries c + countList rest

end

mutual

/-- Full readability: every directory of the tree can be listed. -/
def allListable : FSNode → Bool
  | .file _ _ _ => true
  | .dir _ l cs => l && allListableList cs

def allListableList : List FSNode → Bool
  | [] => true
  | c :: rest => allListable c && allListableList rest

end

theorem allListableList_mem {cs : List FSNode} {x : FSNode}
    (h : allListableList cs = true) (hx : x ∈ cs) : allListable x = true := by
  induction cs with
  | nil => cases hx
  | cons c rest ih =>
    simp only [allListableList, Bool.and_eq_true] at h
    rcases List.mem_cons.mp hx with rfl | hx2
    · exact h.1
    · exact ih h.2 hx2

theorem countList_eq_sum (l : List FSNode) :
    countList l = (l.map countEntries).sum := by
  induction l with
  | nil => rfl
  | cons c rest ih => simp [countList, ih]

theorem countEntries_of_not_kept {m : Nat} {a : Option (List String)}
    {x : FSNode} (h : rendererKeep m a x = false) : countEntries x = 0 := by
  cases x with
  | file nm sz ok => rfl
  | dir n l cs => simp [rendererKeep] at h

theorem countList_filter_keep (m : Nat) (a : Option (List String))
    (l : List FSNode) :
    countList (l.filter (rendererKeep m a)) = countList l := by
  induction l with
  | nil => rfl
  | cons c rest ih =>
    simp only [List.filter_cons]
    by_cases h : rendererKeep m a c = true
    · simp only [if_pos h, countList, ih]
    · rw [if_neg h, ih, countList,
        countEntries_of_not_kept (Bool.not_eq_true _ ▸ h : rendererKeep m a c = false)]
      omega

theorem countList_sortByName (cs : List FSNode) :
    countList (sortByName cs) = countList cs := by
  rw [countList_eq_sum, countList_eq_sum]
  exact ((sortByName_perm cs).map countEntries).sum_eq

theorem progress_aux :
    ∀ k : Nat,
      (∀ node : FSNode, sizeOf node < k → allListable node = true →
        ∀ dirPath pref m a prog,
          (generate_tree node dirPath pref m a prog).2
            = prog + countEntries node)
      ∧ (∀ items : List FSNode, sizeOf items < k →
        (∀ x ∈ items, allListable x = true) →
        ∀ dirPath pref m a prog,
          (drawItems items dirPath pref m a prog).2
            = prog + countList items) := by
  intro k
  induction k with
  | zero =>
    exact ⟨fun node h => absurd h (Nat.not_lt_zero _),
      fun items h => absurd h (Nat.not_lt_zero _)⟩
  | succ k ih =>
    obtain ⟨ihn, ihl⟩ := ih
    constructor
    · intro node hk hall dirPath pref m a prog
      cases node with
      | file nm sz ok => simp [generate_tree, countEntries]
      | dir n listable cs =>
        cases listable with
        | false => simp [allListable] at hall
        | true =>
          simp only [allListable, Bool.and_eq_true, true_and] at hall
          simp only [generate_tree, if_true]
          rw [ihl _ ?_ ?_ dirPath pref m a _]
          · rw [countList_filter_keep, countList_sortByName,
              length_sortByName, countEntries]
            omega
          · have h1 := sizeOf_filter_sort_lt (rendererKeep m a) n true cs
            simp only [FSNode.dir.sizeOf_spec] at hk h1
            omega
          · intro x hx
            exact allListableList_mem hall
              (mem_sortByName.mp (List.mem_filter.mp hx).1)
    · intro items hk hall dirPath pref m a prog
      cases items with
      | nil => simp [drawItems, countList]
      | cons item rest =>
        have hrest : sizeOf rest < k := by
          simp only [List.cons.sizeOf_spec] at hk
          have : 0 < sizeOf item := by cases item <;> simp
          omega
        have hallrest : ∀ x ∈ rest, allListable x = true :=
          fun x hx => hall x (List.mem_cons_of_mem _ hx)
        cases item with
        | file fn fs fok =>
          simp only [drawItems]
          rw [ihl rest hrest hallrest]
          simp [countList, countEntries]
        | dir dn dl dcc =>
          have hitem : sizeOf (FSNode.dir dn dl dcc) < k := by
            simp only [List.cons.sizeOf_spec] at hk
            omega
          simp only [drawItems]
          rw [ihl rest hrest hallrest,
            ihn (.dir dn dl dcc) hitem (hall _ (List.mem_cons_self _ _))]
          simp only [countList]
          omega

/-- Claim C5: after a top-level `generate_tree` call over a fully readable
tree, the progress counter has advanced by exactly the total number of
immediate children (directories and files both) across all listed
directories — one increment per examined entry, whether or not the entry
passed a filter. -/
theorem progress_counts_all_entries (node : FSNode)
    (hall : allListable node = true) (dirPath pref : String) (m : Nat)
    (a : Option (List String)) (prog : Nat) :
    (generate_tree node dirPath pref m a prog).2
      = prog + countEntries node :=
  (progress_aux (sizeOf node + 1)).1 node (Nat.lt_succ_self _) hall
    dirPath pref m a prog

theorem progress_counts_all_entries_witness :
    allListable scenarioTree = true ∧
    (generate_tree scenarioTree "root" "" 1024 (some [".jpg"]) 0).2
      = 0 + countEntries scenarioTree :=
  ⟨by simp [scenarioTree, allListable, allListableList],
   progress_counts_all_entries scenarioTree
     (by simp [scenarioTree, allListable, allListableList]) "root" "" 1024
     (some [".jpg"]) 0⟩

/-- The names of the files the Renderer retains as immediate children of a
node: the non-directory members of the pre-filtered listing
`(sortByName cs).filter (rendererKeep ...)` — literally the list
`generate_tree` draws — or nothing when the listing fails. -/
def rendererRetainedFiles (minSize : Nat) (allowed : Option (List String)) :
    FSNode → List String
  | .file _ _ _ => []
  | .dir _ listable cs =>
    if listable then
      (((sortByName cs).filter (rendererKeep minSize allowed)).filter
        (fun c => !c.isDir)).map FSNode.name
    else []

/-- The Scanner yield restricted to the immediate (non-recursive) children
of a directory: the entries produced for the own `os.walk` triple of the
directory, before the walk descends into subdirectories. -/
def scannerOwnYield (path : String) (node : FSNode) (m : Nat)
    (a : Option (List String)) : List (String × Nat × String) :=
  match node with
  | .file _ _ _ => []
  | .dir _ listable cs => if listable then engineDirFiles path cs m a else []

/-- `scannerOwnYield` is definitionally the immediate-children segment of the
full Scanner output: the walk emits it first and only then descends. -/
theorem analyze_eq_own_append (path n : String) (listable : Bool)
    (cs : List FSNode) (m : Nat) (a : Option (List String)) :
    analyze_folder_generator path (.dir n listable cs) m a
      = scannerOwnYield path (.dir n listable cs) m a
        ++ (if listable then engineSubdirs path cs m a else []) := by
  cases listable <;> simp [analyze_folder_generator, scannerOwnYield]

theorem rendererKeep_file_iff {m : Nat} {a : Option (List String)}
    {nm : String} {sz : Nat} {ok : Bool} :
    rendererKeep m a (.file nm sz ok) = true ↔
    ((match a with
      | none => false
      | some l => !l.isEmpty && !l.contains (extOf nm)) = false
     ∧ ok = true ∧ ¬sz < m) := by
  simp only [rendererKeep]
  cases hA : (match a with
      | none => false
      | some l => !l.isEmpty && !l.contains (extOf nm)) <;>
    cases ok <;> by_cases hm : sz < m <;> simp [hA, hm]

theorem string_append_left_cancel (s t u : String) (h : s ++ t = s ++ u) :
    t = u := by
  have h2 := congrArg String.data h
  simp only [String.data_append] at h2
  have h3 := List.append_cancel_left h2
  cases t with
  | mk td =>
    cases u with
    | mk ud =>
      have h4 : td = ud := by simpa using h3
      rw [h4]

/-- Claim C1: cross-component filter consistency — for every directory node
and every filter configuration, a file name is retained by the Renderer as
an immediate child exactly when the Scanner yields an entry for that child
of the directory (an unlistable directory retains and yields nothing). -/
theorem filter_consistency (node : FSNode) (path : String) (m : Nat)
    (a : Option (List String)) (nm : String) :
    nm ∈ rendererRetainedFiles m a node ↔
    ∃ s e, (path ++ "/" ++ nm, s, e) ∈ scannerOwnYield path node m a := by
  cases node with
  | file n sz ok => simp [rendererRetainedFiles, scannerOwnYield]
  | dir n listable cs =>
    cases listable with
    | false => simp [rendererRetainedFiles, scannerOwnYield]
    | true =>
      simp only [rendererRetainedFiles, scannerOwnYield, if_true]
      constructor
      · intro h
        obtain ⟨c, hc, hname⟩ := List.mem_map.mp h
        obtain ⟨hc2, hdir⟩ := List.mem_filter.mp hc
        obtain ⟨hc3, hkeep⟩ := List.mem_filter.mp hc2
        have hmem : c ∈ cs := mem_sortByName.mp hc3
        cases c with
        | dir n2 l2 cc2 => simp [FSNode.isDir] at hdir
        | file nm2 sz2 ok2 =>
          simp only [FSNode.name] at hname
          subst hname
          obtain ⟨hA, hok, hm⟩ := rendererKeep_file_iff.mp hkeep
          exact ⟨sz2, extOf nm2, mem_engineDirFiles.mpr
            ⟨nm2, sz2, ok2, hmem,
             engineFileYield_eq_some_iff.mpr ⟨hA, hok, hm, rfl, rfl, rfl⟩⟩⟩
      · rintro ⟨s, e, h⟩
        obtain ⟨nm2, sz2, ok2, hmem, hy⟩ := mem_engineDirFiles.mp h
        obtain ⟨hA, hok, hm, hp, hs, he⟩ := engineFileYield_eq_some_iff.mp hy
        have hnm : nm2 = nm :=
          string_append_left_cancel (path ++ "/") _ _ hp
        subst hnm
        apply List.mem_map.mpr
        refine ⟨.file nm2 sz2 ok2, ?_, rfl⟩
        apply List.mem_filter.mpr
        refine ⟨List.mem_filter.mpr
          ⟨mem_sortByName.mpr hmem,
           rendererKeep_file_iff.mpr ⟨hA, hok, hm⟩⟩, ?_⟩
        simp [FSNode.isDir]

end AutomationScripting
